import Mathlib

/-!
Shallow embedding of the fractonkv repository core, for checking its
natural-language specification.

Conventions of the embedding:
* Rust `Bytes` (opaque byte sequences) are `List Nat`.
* `Instant` timestamps and `Duration` are abstract ticks, modelled as `Nat`;
  the current time `Instant::now()` is passed in as an explicit `now` argument.
* Rust functions that take `&mut` state return the new state explicitly.
* A Rust panic (e.g. `Option::unwrap` on `None`) is modelled by `Option`:
  `none` is the panic outcome.
* `f64` sorted-set scores are modelled as `Int` stand-ins; no claim under
  study exercises score arithmetic.
* Frame attributes (`attributes: Option<...>`) are elided: the core always
  constructs frames with `attributes: None` and never reads them.
-/

/-- Opaque byte sequence (Rust `bytes::Bytes`). -/
abbrev Bytes : Type := List Nat

/-- Bytes of a Rust string literal (ASCII use only in this code base). -/
def strBytes (s : String) : Bytes := s.data.map Char.toNat

/-- RESP3 frame model, after `redis_protocol::resp3::types::BytesFrame`;
only the variants the core constructs or inspects are carried. -/
inductive BytesFrame : Type where
  | simpleString (data : Bytes)
  | blobString (data : Bytes)
  | simpleError (data : String)
  | integer (i : Int)
  | null
  | array (data : List BytesFrame)

/-- Stored value kinds, after `DataKind` in
`fractonkv-core/src/shard/types.rs`. `Hash`, `Set`, `SortedSet` use
association/element lists in place of `HashMap`/`HashSet`/`BTreeMap`. -/
inductive DataKind : Type where
  | string (s : Bytes)
  | bulkString (b : Bytes)
  | hash (entries : List (Bytes × Bytes))
  | list (items : List DataKind)
  | set (items : List Bytes)
  | sortedSet (entries : List (Int × Bytes))

/-- `DataKind::to_bytes_frame` from `fractonkv-core/src/shard/types.rs`. -/
def DataKind.toBytesFrame : DataKind → BytesFrame
  | .string s => .simpleString s
  | .bulkString b => .blobString b
  | .hash entries =>
      .array (entries.flatMap (fun p => [.simpleString p.1, .simpleString p.2]))
  | .list items => .array (items.attach.map (fun x => DataKind.toBytesFrame x.1))
  | .set items => .array (items.map (fun b => .simpleString b))
  | .sortedSet entries =>
      .array (entries.flatMap
        (fun p => [.simpleString (strBytes (toString p.1)), .simpleString p.2]))
decreasing_by
  simp_wf
  have h := List.sizeOf_lt_of_mem x.2
  omega

/-- `StoreObject` from `fractonkv-core/src/shard/types.rs`. -/
structure StoreObject : Type where
  data : DataKind
  ttl : Option Nat
  last_accessed : Nat
  created_at : Nat

/-- `DataStore = HashMap<Bytes, StoreObject>`, modelled as an association
list with (by the `HashMap` invariant) unique keys. -/
abbrev DataStore : Type := List (Bytes × StoreObject)

/-- `CommandExecutionError` from `fractonkv-core/src/errors.rs`. -/
inductive CommandExecutionError : Type where
  | wrongArity (cmd : String)
  | invalidExpire
  | missingExpire
  | syntaxError (near : String)
  | invalidParams (msg : String)
  | unknownCommand

/-- `FrameError` from `fractonkv-core/src/errors.rs` (the variants
`from_frame` can produce). -/
inductive FrameError : Type where
  | invalidFrame
  | missingCommand
  | utf8Error
  | unknownCommand

/-- `HashMap::get` on the modelled `DataStore`: first (hence, under the
unique-keys invariant, only) entry with the given key. -/
def lookupStore (db : DataStore) (k : Bytes) : Option StoreObject :=
  match db with
  | [] => none
  | (k', o) :: rest => if k' = k then some o else lookupStore rest k

/-- The in-place mutation `v.last_accessed = Instant::now()` performed
through `HashMap::get_mut`: rewrite `last_accessed` of the entry at `k`. -/
def storeTouch (db : DataStore) (k : Bytes) (now : Nat) : DataStore :=
  match db with
  | [] => []
  | (k', o) :: rest =>
      if k' = k then (k', { o with last_accessed := now }) :: rest
      else (k', o) :: storeTouch rest k now

/-- `handle_get` from `fractonkv-core/src/commands/get.rs`. The `&mut`
store is threaded explicitly; `Instant::now()` is the `now` argument. -/
def handleGet (args : List BytesFrame) (db : DataStore) (now : Nat) :
    Except CommandExecutionError BytesFrame × DataStore :=
  match args.head? with
  | some (.simpleString key) =>
      match lookupStore db key with
      | some v =>
          match v.ttl with
          | some ttl =>
              if v.created_at + ttl ≤ now then (.ok .null, db)
              else (.ok v.data.toBytesFrame, storeTouch db key now)
          | none => (.ok v.data.toBytesFrame, storeTouch db key now)
      | none => (.ok .null, db)
  | _ => (.error (.wrongArity "GET"), db)

/-- `handle_set` from `fractonkv-core/src/commands/set.rs`. The entire
flag-parsing body is commented out in the source; the live code
unconditionally replies `"OK"` and never touches the store. -/
def handleSet (args : List BytesFrame) (db : DataStore) :
    Except CommandExecutionError BytesFrame × DataStore :=
  (.ok (.simpleString (strBytes "OK")), db)

/-!
## Consistent hash ring (`fractonkv-core/src/shard/hasher.rs`)

The source hashes with `XxHash64::with_seed(0)` through the generic `Hash`
trait. The hash function is an external library; the embedding takes it as
an explicit parameter `hashS : String → Nat` (for the vnode labels, which
are strings) and `hashK : String → Nat` (for routing keys), so every
theorem below holds for the actual XxHash64 instance in particular.
-/

/-- One entry step of `BTreeMap::insert` on the ring, modelled on a list of
(hash, shard id) pairs kept strictly sorted by hash: insert keeps order and
overwrites an equal key. -/
def btreeInsert (m : List (Nat × Nat)) (k v : Nat) : List (Nat × Nat) :=
  match m with
  | [] => [(k, v)]
  | (k', v') :: rest =>
      if k < k' then (k, v) :: (k', v') :: rest
      else if k = k' then (k, v) :: rest
      else (k', v') :: btreeInsert rest k v

/-- `format!("{0}-{1}", id, vnode_id)` composite vnode label (positions
spelled out; the source uses the positional form). -/
def vnodeLabel (id vnode_id : Nat) : String :=
  toString id ++ "-" ++ toString vnode_id

/-- The inner loop of `ConsistentHashRing::new`: insert all vnode entries
of one shard id. -/
def insertVnodes (hashS : String → Nat) (id vnodes : Nat)
    (m : List (Nat × Nat)) : List (Nat × Nat) :=
  (List.range vnodes).foldl
    (fun r vnode_id => btreeInsert r (hashS (vnodeLabel id vnode_id)) id) m

/-- The full ring map built by `ConsistentHashRing::new`'s nested loops. -/
def buildRing (hashS : String → Nat) (shard_ids : List Nat) (vnodes : Nat) :
    List (Nat × Nat) :=
  shard_ids.foldl (fun r id => insertVnodes hashS id vnodes r) []

/-- `ConsistentHashRing` from `fractonkv-core/src/shard/hasher.rs`. -/
structure ConsistentHashRing : Type where
  ring : List (Nat × Nat)
  vnodes : Nat

/-- `ConsistentHashRing::new`. It performs no emptiness check on
`shard_ids`. -/
def ConsistentHashRing.new (hashS : String → Nat) (shard_ids : List Nat)
    (vnodes : Nat) : ConsistentHashRing :=
  { ring := buildRing hashS shard_ids vnodes, vnodes := vnodes }

/-- `self.ring.range(hash..).next()` on the sorted ring list: the first
entry whose hash is ≥ `h`. -/
def rangeNext (m : List (Nat × Nat)) (h : Nat) : Option (Nat × Nat) :=
  m.find? (fun p => decide (h ≤ p.1))

/-- `self.ring.values().next()`: value of the smallest-hash entry. -/
def firstValue (m : List (Nat × Nat)) : Option Nat :=
  m.head?.map Prod.snd

/-- `ConsistentHashRing::get_shard`. The `.unwrap()` on the wrap-around
path panics on an empty ring; the panic is modelled as `none`. -/
def ConsistentHashRing.get_shard (hashK : String → Nat)
    (r : ConsistentHashRing) (key : String) : Option Nat :=
  let h := hashK key
  match rangeNext r.ring h with
  | some p => some p.2
  | none => firstValue r.ring

/-!
## Shard manager (`fractonkv-core/src/shard/manager.rs`)
-/

/-- The ring constructed inside `ShardManager::start`:
`ConsistentHashRing::new((0..=self.num_shards).collect(), 64)`. Note the
inclusive range `0..=num_shards`, i.e. `List.range (num_shards + 1)`. -/
def startRing (hashS : String → Nat) (num_shards : Nat) : ConsistentHashRing :=
  ConsistentHashRing.new hashS (List.range (num_shards + 1)) 64

/-- The shard ids actually created by `ShardManager::start`'s spawn loop:
`for (i, _rx) in receivers.into_iter().enumerate()` over `num_shards`
receivers, i.e. `0, …, num_shards - 1`. -/
def startShardIds (num_shards : Nat) : List Nat :=
  List.range num_shards

/-!
## Prototype shard actor (`src/shard/mod.rs` and `src/store/entry.rs`)

The mailbox (`tokio::sync::mpsc::Receiver`) is modelled as the list of
jobs in arrival order; `recv().await` takes the head, and an empty list
stands for the closed mailbox (`recv` returning `None`). The oneshot
response channel is modelled by a `responseOpen` flag (receiver still
alive) plus the message delivered, if any.
-/

/-- Prototype value kinds, after `DataKind` in `src/store/entry.rs`
(collections as lists; `f64` scores as `Int` stand-ins). -/
inductive PDataKind : Type where
  | string (s : String)
  | list (items : List String)
  | set (items : List String)
  | hash (entries : List (String × String))
  | sortedSet (entries : List (String × Int))

/-- `Entry` from `src/store/entry.rs`. -/
structure PEntry : Type where
  key : String
  value : PDataKind
  ttl : Option Nat
  last_accessed : Option Nat
  created_at : Nat

/-- `ShardJob` from `src/shard/mod.rs`; the `Ulid` is an abstract tag. -/
structure PShardJob : Type where
  id : Nat
  entry : PEntry
  responseOpen : Bool

/-- `HashMap::insert` on the prototype shard's `db`. -/
def pmapInsert (m : List (String × PEntry)) (k : String) (v : PEntry) :
    List (String × PEntry) :=
  match m with
  | [] => [(k, v)]
  | (k', v') :: rest =>
      if k' = k then (k, v) :: rest else (k', v') :: pmapInsert rest k v

/-- `Shard` from `src/shard/mod.rs`, with the mailbox contents inlined. -/
structure PShard : Type where
  id : Nat
  db : List (String × PEntry)
  jobs : List PShardJob

/-- `Shard::handle_job`: insert the job's entry into the shard's `db`,
then send the success message on the job's oneshot channel. The returned
option is the delivered message (`none` when the receiver was dropped, in
which case `handle_job` returns `Err(())`). -/
def PShard.handleJob (s : PShard) (job : PShardJob) : PShard × Option String :=
  let s' := { s with db := pmapInsert s.db job.entry.key job.entry }
  let msg := "OK: Shard " ++ toString s.id ++ " stored key " ++ job.entry.key
  (s', if job.responseOpen then some msg else none)

/-- `Shard::run` from `src/shard/mod.rs`: one `recv().await`, handling at
most a single job before returning; there is no loop in the source.
Returns the final shard state (its `jobs` field holding the mailbox
contents left unread) and the list of responses delivered. -/
def PShard.run (s : PShard) : PShard × List String :=
  match s.jobs with
  | [] => (s, [])
  | job :: rest =>
      let s1 := { s with jobs := rest }
      let res := s1.handleJob job
      (res.1, res.2.toList)

/-!
## Command resolution and frame handling
(`fractonkv-core/src/commands/mod.rs`, `fractonkv-core/src/shard/shard.rs`)
-/

/-- UTF-8 continuation byte test (`0x80..=0xBF`). -/
def isCont (b : Nat) : Bool := 128 ≤ b && b ≤ 191

/-- `std::str::from_utf8`, modelled as strict UTF-8 validation and
decoding of a byte list (rejecting overlong forms, surrogates and
codepoints above U+10FFFF, as std does). `none` is `Utf8Error`. -/
def utf8Decode? : List Nat → Option (List Char)
  | [] => some []
  | b1 :: rest =>
    if b1 ≤ 127 then
      (utf8Decode? rest).map (fun cs => Char.ofNat b1 :: cs)
    else if 194 ≤ b1 && b1 ≤ 223 then
      match rest with
      | b2 :: rest2 =>
          if isCont b2 then
            (utf8Decode? rest2).map
              (fun cs => Char.ofNat ((b1 - 192) * 64 + (b2 - 128)) :: cs)
          else none
      | [] => none
    else if 224 ≤ b1 && b1 ≤ 239 then
      match rest with
      | b2 :: b3 :: rest3 =>
          let lo2 := if b1 = 224 then 160 else 128
          let hi2 := if b1 = 237 then 159 else 191
          if (lo2 ≤ b2 && b2 ≤ hi2) && isCont b3 then
            (utf8Decode? rest3).map
              (fun cs =>
                Char.ofNat ((b1 - 224) * 4096 + (b2 - 128) * 64 + (b3 - 128)) :: cs)
          else none
      | _ => none
    else if 240 ≤ b1 && b1 ≤ 244 then
      match rest with
      | b2 :: b3 :: b4 :: rest4 =>
          let lo2 := if b1 = 240 then 144 else 128
          let hi2 := if b1 = 244 then 143 else 191
          if (lo2 ≤ b2 && b2 ≤ hi2) && (isCont b3 && isCont b4) then
            (utf8Decode? rest4).map
              (fun cs =>
                Char.ofNat ((b1 - 240) * 262144 + (b2 - 128) * 4096 +
                    (b3 - 128) * 64 + (b4 - 128)) :: cs)
          else none
      | _ => none
    else none

/-- `char::to_ascii_uppercase`. -/
def asciiUpperChar (c : Char) : Char :=
  if 97 ≤ c.toNat && c.toNat ≤ 122 then Char.ofNat (c.toNat - 32) else c

/-- `str::to_ascii_uppercase`. -/
def asciiUpper (s : String) : String := String.mk (s.data.map asciiUpperChar)

/-- Modelled from the spec: the command registry consumed by command
resolution is generated at build time from JSON command documents that are
not under `src/`; per the spec it is a static name-to-identifier table for
the GET/SET command family, matched case-insensitively (the caller
uppercases first). -/
inductive CommandKind : Type where
  | get
  | set

/-- Modelled from the spec: registry lookup of an (already uppercased)
command name, `cmd_str.parse::<CommandKind>()`. -/
def parseCommand (s : String) : Option CommandKind :=
  if s = "GET" then some CommandKind.get
  else if s = "SET" then some CommandKind.set
  else none

/-- `CommandKind::from_frame` from `fractonkv-core/src/commands/mod.rs`. -/
def CommandKind.fromFrame (frame : BytesFrame) : Except FrameError CommandKind :=
  match frame with
  | .array data =>
      match data.head? with
      | none => .error .missingCommand
      | some cmdFrame =>
          match cmdFrame with
          | .blobString d =>
              match utf8Decode? d with
              | none => .error .utf8Error
              | some cs =>
                  match parseCommand (asciiUpper (String.mk cs)) with
                  | some c => .ok c
                  | none => .error .unknownCommand
          | .simpleString d =>
              match utf8Decode? d with
              | none => .error .utf8Error
              | some cs =>
                  match parseCommand (asciiUpper (String.mk cs)) with
                  | some c => .ok c
                  | none => .error .unknownCommand
          | _ => .error .invalidFrame
  | _ => .error .invalidFrame

/-- `handle_frame` from `fractonkv-core/src/shard/shard.rs`. A frame that
is not a non-empty array yields the `"ERR invalid frame"` reply; otherwise
the source runs `CommandKind::from_frame(frame).unwrap()` — the `unwrap`
panics whenever `from_frame` errs, modelled as `none` — and then replies
`"ERR command not implemented"` (the parsed command and the store are not
used further). -/
def handleFrame (frame : BytesFrame) (db : DataStore) : Option BytesFrame :=
  match frame with
  | .array data =>
      if data.isEmpty then
        some (.simpleError "ERR invalid frame")
      else
        match CommandKind.fromFrame frame with
        | .error _ => none
        | .ok _ => some (.simpleError "ERR command not implemented")
  | _ => some (.simpleError "ERR invalid frame")

/-!
## Theorems for the claims
-/

/-- C1: the claim "SET then GET returns the same value bit-for-bit (no
TTL/condition skipped the write)" fails on the code: `handle_set` is a
stub that replies OK without writing, so a subsequent GET of the same key
returns null, not the value. -/
theorem set_then_get_loses_value :
    handleSet [.simpleString (strBytes "a"), .simpleString (strBytes "1")] [] =
      (.ok (.simpleString (strBytes "OK")), []) ∧
    handleGet [.simpleString (strBytes "a")]
      (handleSet [.simpleString (strBytes "a"), .simpleString (strBytes "1")] []).2 0 =
      (.ok .null, []) ∧
    BytesFrame.null ≠ BytesFrame.simpleString (strBytes "1") :=
  ⟨rfl, rfl, fun h => BytesFrame.noConfusion h⟩

/-- C3: the claim "SET fails with WrongArity on an odd flag/value count,
and with errors on conflicting flags" fails on the code: the stub
`handle_set` performs no validation and replies OK on an odd trailing
count and on NX together with XX alike (the store is indeed left
unmodified, but no error is produced). -/
theorem set_accepts_invalid_flags :
    handleSet [.simpleString (strBytes "a"), .simpleString (strBytes "1"),
        .simpleString (strBytes "EX")] [] =
      (.ok (.simpleString (strBytes "OK")), []) ∧
    handleSet [.simpleString (strBytes "a"), .simpleString (strBytes "1"),
        .simpleString (strBytes "NX"), .simpleString (strBytes "1"),
        .simpleString (strBytes "XX"), .simpleString (strBytes "1")] [] =
      (.ok (.simpleString (strBytes "OK")), []) :=
  ⟨rfl, rfl⟩

/-- C4: the claim "every frame-level failure produces an error reply and
the frame handler never panics" fails on the code: for a non-empty array
whose command name is unknown, `handle_frame` calls
`CommandKind::from_frame(frame).unwrap()`, which panics (modelled as
`none`) instead of replying with an error frame. -/
theorem handle_frame_panics_on_unknown_command :
    handleFrame (.array [.simpleString (strBytes "BOGUS")]) [] = none ∧
    handleFrame (.array [.integer 5]) [] = none :=
  ⟨rfl, rfl⟩

/-- A concrete prototype shard job used to exercise `Shard::run`. -/
def pjob (n : Nat) (k : String) : PShardJob :=
  { id := n,
    entry := { key := k, value := .string "v", ttl := none,
               last_accessed := none, created_at := 0 },
    responseOpen := true }

/-- C5: the claim "the shard's run loop executes every mailbox job in
arrival order and terminates only once the mailbox is closed and drained"
fails on the code: `Shard::run` performs a single `recv` and returns, so
with two jobs in the mailbox only the first is executed and the second is
left unprocessed. -/
theorem run_handles_only_first_job :
    (PShard.run { id := 0, db := [], jobs := [pjob 1 "a", pjob 2 "b"] }).1.jobs =
      [pjob 2 "b"] ∧
    (PShard.run { id := 0, db := [], jobs := [pjob 1 "a", pjob 2 "b"] }).2 =
      ["OK: Shard 0 stored key a"] ∧
    (PShard.run { id := 0, db := [], jobs := [pjob 1 "a", pjob 2 "b"] }).1.db =
      [("a", (pjob 1 "a").entry)] :=
  ⟨rfl, rfl, rfl⟩

/-- C8 counterexample: the claim "a ring with zero shards is rejected at
construction" fails on the code: `ConsistentHashRing::new` with an empty
shard-id list succeeds and returns a ring whose map is empty, instead of
failing. -/
theorem new_accepts_empty_shard_list :
    (ConsistentHashRing.new (fun _ => 0) [] 64).ring = [] := rfl

/-- C8 amended: constructing a ring with zero shards is not rejected; the
constructor returns a ring with an empty map, and every later
`get_shard` on such a ring panics on its wrap-around `unwrap` (modelled as
`none`) — routing is undefined exactly there, not at construction. -/
theorem get_shard_on_empty_ring_panics (hashS hK : String → Nat) (vn : Nat)
    (key : String) :
    (ConsistentHashRing.new hashS [] vn).ring = [] ∧
    ConsistentHashRing.get_shard hK (ConsistentHashRing.new hashS [] vn) key =
      none :=
  ⟨rfl, rfl⟩

/-- C2: GET semantics. With the key present but expired
(`created_at + ttl ≤ now`) the handler succeeds with null and leaves the
store — in particular `last_accessed` — untouched; with the key present
and not expired it succeeds with the value encoded to wire form and
rewrites that entry's `last_accessed` to now; with the key absent it
succeeds with null. -/
theorem get_ttl_semantics (key : Bytes) (rest : List BytesFrame)
    (db : DataStore) (now : Nat) :
    (lookupStore db key = none →
      handleGet (.simpleString key :: rest) db now = (.ok .null, db)) ∧
    (∀ v t, lookupStore db key = some v → v.ttl = some t →
      v.created_at + t ≤ now →
      handleGet (.simpleString key :: rest) db now = (.ok .null, db)) ∧
    (∀ v, lookupStore db key = some v →
      (∀ t, v.ttl = some t → now < v.created_at + t) →
      handleGet (.simpleString key :: rest) db now =
        (.ok v.data.toBytesFrame, storeTouch db key now)) := by
  refine ⟨?_, ?_, ?_⟩
  · intro h
    simp [handleGet, h]
  · intro v t hv ht hle
    simp [handleGet, hv, ht, hle]
  · intro v hv hlt
    cases httl : v.ttl with
    | none => simp [handleGet, hv, httl]
    | some t =>
        have h1 : ¬ v.created_at + t ≤ now := by
          have := hlt t httl
          omega
        simp [handleGet, hv, httl, h1]

/-- A live entry: value `"1"`, TTL 10 ticks from creation time 5. -/
def objLive : StoreObject :=
  { data := .string [49], ttl := some 10, last_accessed := 0, created_at := 5 }

/-- An expired entry: TTL 10 ticks from creation time 0. -/
def objExp : StoreObject :=
  { data := .string [49], ttl := some 10, last_accessed := 3, created_at := 0 }

theorem get_ttl_semantics_witness :
    (handleGet [.simpleString [97]] [] 20 = (.ok .null, [])) ∧
    (handleGet [.simpleString [97]] [([97], objExp)] 20 =
      (.ok .null, [([97], objExp)])) ∧
    (handleGet [.simpleString [97]] [([97], objLive)] 7 =
      (.ok (DataKind.string [49]).toBytesFrame,
        storeTouch [([97], objLive)] [97] 7)) := by
  refine ⟨?_, ?_, ?_⟩
  · exact (get_ttl_semantics [97] [] [] 20).1 rfl
  · exact (get_ttl_semantics [97] [] [([97], objExp)] 20).2.1 objExp 10 rfl rfl
      (by decide)
  · refine (get_ttl_semantics [97] [] [([97], objLive)] 7).2.2 objLive rfl ?_
    intro t ht
    simp only [objLive, Option.some.injEq] at ht
    omega

/-- The key GET would access: the first argument, when it is a simple
string. -/
def accessedKey (args : List BytesFrame) : Option Bytes :=
  match args.head? with
  | some (.simpleString k) => some k
  | _ => none

/-- Allowed evolution of one store entry across a GET: key, value data,
TTL and creation time are unchanged, and `last_accessed` is either
unchanged or rewritten to `now` — the latter only for the accessed,
non-expired entry. -/
def entryEvolution (now : Nat) (acc : Option Bytes)
    (p q : Bytes × StoreObject) : Prop :=
  q.1 = p.1 ∧ q.2.data = p.2.data ∧ q.2.ttl = p.2.ttl ∧
    q.2.created_at = p.2.created_at ∧
    (q.2.last_accessed = p.2.last_accessed ∨
      (acc = some p.1 ∧ (∀ t, p.2.ttl = some t → now < p.2.created_at + t) ∧
        q.2.last_accessed = now))

theorem entryEvolution_refl (now : Nat) (acc : Option Bytes)
    (p : Bytes × StoreObject) : entryEvolution now acc p p :=
  ⟨rfl, rfl, rfl, rfl, Or.inl rfl⟩

theorem forall₂_evolution_refl (now : Nat) (acc : Option Bytes)
    (db : DataStore) : List.Forall₂ (entryEvolution now acc) db db := by
  induction db with
  | nil => exact List.Forall₂.nil
  | cons p rest ih => exact List.Forall₂.cons (entryEvolution_refl now acc p) ih

theorem forall₂_evolution_touch (now : Nat) (key : Bytes) (v : StoreObject)
    (db : DataStore) (hv : lookupStore db key = some v)
    (hlt : ∀ t, v.ttl = some t → now < v.created_at + t) :
    List.Forall₂ (entryEvolution now (some key)) db (storeTouch db key now) := by
  induction db with
  | nil => simp [lookupStore] at hv
  | cons p rest ih =>
      obtain ⟨k', o⟩ := p
      by_cases hk : k' = key
      · subst hk
        simp only [lookupStore, eq_self_iff_true, if_true,
          Option.some.injEq] at hv
        subst hv
        simp only [storeTouch, eq_self_iff_true, if_true]
        exact List.Forall₂.cons ⟨rfl, rfl, rfl, rfl, Or.inr ⟨rfl, hlt, rfl⟩⟩
          (forall₂_evolution_refl now (some k') rest)
      · simp only [lookupStore, if_neg hk] at hv
        simp only [storeTouch, if_neg hk]
        exact List.Forall₂.cons (entryEvolution_refl now (some key) (k', o))
          (ih hv)

/-- C9: frame effect of the GET handler. The store it returns has
pointwise-related entries: no key is added or removed, no entry's value
data, TTL or creation time changes, and the only permitted mutation is
setting `last_accessed` to now on the single accessed, present,
non-expired entry. -/
theorem get_frame_effect (args : List BytesFrame) (db : DataStore)
    (now : Nat) :
    List.Forall₂ (entryEvolution now (accessedKey args)) db
      (handleGet args db now).2 := by
  cases args with
  | nil => exact forall₂_evolution_refl now (accessedKey []) db
  | cons a rest =>
      cases a with
      | simpleString key =>
          cases hv : lookupStore db key with
          | none =>
              simp only [handleGet, List.head?_cons, hv]
              exact forall₂_evolution_refl now _ db
          | some v =>
              cases httl : v.ttl with
              | none =>
                  simp only [handleGet, List.head?_cons, hv, httl]
                  exact forall₂_evolution_touch now key v db hv
                    (by intro t ht; rw [httl] at ht; cases ht)
              | some t =>
                  by_cases hexp : v.created_at + t ≤ now
                  · simp only [handleGet, List.head?_cons, hv, httl,
                      if_pos hexp]
                    exact forall₂_evolution_refl now _ db
                  · simp only [handleGet, List.head?_cons, hv, httl,
                      if_neg hexp]
                    refine forall₂_evolution_touch now key v db hv ?_
                    intro t' ht'
                    rw [httl] at ht'
                    cases ht'
                    omega
      | blobString d => exact forall₂_evolution_refl now _ db
      | simpleError d => exact forall₂_evolution_refl now _ db
      | integer i => exact forall₂_evolution_refl now _ db
      | null => exact forall₂_evolution_refl now _ db
      | array d => exact forall₂_evolution_refl now _ db

/-!
## Ring lemmas: the sorted-map model of `BTreeMap<u64, usize>`
-/

/-- The `BTreeMap` invariant on the modelled ring: strictly ascending
hash keys. -/
def ringSorted (m : List (Nat × Nat)) : Prop :=
  List.Pairwise (fun p q => p.1 < q.1) m

theorem btreeInsert_mem {m : List (Nat × Nat)} {k v : Nat} {p : Nat × Nat}
    (hp : p ∈ btreeInsert m k v) : p = (k, v) ∨ p ∈ m := by
  induction m with
  | nil =>
      simp only [btreeInsert, List.mem_singleton] at hp
      exact Or.inl hp
  | cons a rest ih =>
      obtain ⟨k', v'⟩ := a
      simp only [btreeInsert] at hp
      by_cases h1 : k < k'
      · rw [if_pos h1, List.mem_cons] at hp
        rcases hp with hp | hp
        · exact Or.inl hp
        · exact Or.inr hp
      · rw [if_neg h1] at hp
        by_cases h2 : k = k'
        · rw [if_pos h2, List.mem_cons] at hp
          rcases hp with hp | hp
          · exact Or.inl hp
          · exact Or.inr (List.mem_cons_of_mem _ hp)
        · rw [if_neg h2, List.mem_cons] at hp
          rcases hp with hp | hp
          · exact Or.inr (by rw [hp]; exact List.mem_cons_self _ _)
          · rcases ih hp with hh | hh
            · exact Or.inl hh
            · exact Or.inr (List.mem_cons_of_mem _ hh)

theorem btreeInsert_self_mem (m : List (Nat × Nat)) (k v : Nat) :
    (k, v) ∈ btreeInsert m k v := by
  induction m with
  | nil => simp [btreeInsert]
  | cons a rest ih =>
      obtain ⟨k', v'⟩ := a
      simp only [btreeInsert]
      by_cases h1 : k < k'
      · rw [if_pos h1]; exact List.mem_cons_self _ _
      · rw [if_neg h1]
        by_cases h2 : k = k'
        · rw [if_pos h2]; exact List.mem_cons_self _ _
        · rw [if_neg h2]; exact List.mem_cons_of_mem _ ih

theorem btreeInsert_ne_nil (m : List (Nat × Nat)) (k v : Nat) :
    btreeInsert m k v ≠ [] := by
  cases m with
  | nil => simp [btreeInsert]
  | cons a rest =>
      obtain ⟨k', v'⟩ := a
      simp only [btreeInsert]
      by_cases h1 : k < k'
      · rw [if_pos h1]; simp
      · rw [if_neg h1]
        by_cases h2 : k = k'
        · rw [if_pos h2]; simp
        · rw [if_neg h2]; simp

theorem btreeInsert_sorted {m : List (Nat × Nat)} (k v : Nat)
    (hs : ringSorted m) : ringSorted (btreeInsert m k v) := by
  induction m with
  | nil =>
      simp [btreeInsert, ringSorted]
  | cons a rest ih =>
      obtain ⟨k', v'⟩ := a
      rw [ringSorted, List.pairwise_cons] at hs
      obtain ⟨hhead, htail⟩ := hs
      simp only [btreeInsert]
      by_cases h1 : k < k'
      · rw [if_pos h1]
        rw [ringSorted, List.pairwise_cons]
        refine ⟨?_, ?_⟩
        · intro q hq
          rcases List.mem_cons.mp hq with hq | hq
          · simp only [hq]; exact h1
          · exact Nat.lt_trans h1 (hhead q hq)
        · rw [List.pairwise_cons]
          exact ⟨hhead, htail⟩
      · rw [if_neg h1]
        by_cases h2 : k = k'
        · rw [if_pos h2]
          rw [ringSorted, List.pairwise_cons]
          subst h2
          exact ⟨hhead, htail⟩
        · rw [if_neg h2]
          rw [ringSorted, List.pairwise_cons]
          refine ⟨?_, ih htail⟩
          intro q hq
          rcases btreeInsert_mem hq with hh | hh
          · subst hh
            exact Nat.lt_of_le_of_ne (Nat.le_of_not_lt h1) fun e => h2 e.symm
          · exact hhead q hh

/-!
Generic lemmas about a left fold of `btreeInsert` steps whose inserted
value is fixed (as in both loops of `ConsistentHashRing::new`).
-/

theorem foldlInsert_sorted (keyf : Nat → Nat) (v : Nat) (l : List Nat) :
    ∀ m : List (Nat × Nat), ringSorted m →
      ringSorted (l.foldl (fun r j => btreeInsert r (keyf j) v) m) := by
  induction l with
  | nil => intro m hm; simpa using hm
  | cons j rest ih =>
      intro m hm
      simp only [List.foldl_cons]
      exact ih _ (btreeInsert_sorted _ _ hm)

theorem foldlInsert_mem (keyf : Nat → Nat) (v : Nat) (l : List Nat) :
    ∀ (m : List (Nat × Nat)) (p : Nat × Nat),
      p ∈ l.foldl (fun r j => btreeInsert r (keyf j) v) m →
      p.2 = v ∨ p ∈ m := by
  induction l with
  | nil => intro m p hp; exact Or.inr (by simpa using hp)
  | cons j rest ih =>
      intro m p hp
      simp only [List.foldl_cons] at hp
      rcases ih _ p hp with hh | hh
      · exact Or.inl hh
      · rcases btreeInsert_mem hh with h2 | h2
        · subst h2; exact Or.inl rfl
        · exact Or.inr h2

theorem foldlInsert_ne_nil_pres (keyf : Nat → Nat) (v : Nat) (l : List Nat) :
    ∀ m : List (Nat × Nat), m ≠ [] →
      l.foldl (fun r j => btreeInsert r (keyf j) v) m ≠ [] := by
  induction l with
  | nil => intro m hm; simpa using hm
  | cons j rest ih =>
      intro m hm
      simp only [List.foldl_cons]
      exact ih _ (btreeInsert_ne_nil _ _ _)

theorem foldlInsert_exists_val (keyf : Nat → Nat) (v : Nat) (l : List Nat)
    (hl : l ≠ []) :
    ∀ m : List (Nat × Nat),
      ∃ p ∈ l.foldl (fun r j => btreeInsert r (keyf j) v) m, p.2 = v := by
  induction l with
  | nil => exact absurd rfl hl
  | cons j rest ih =>
      intro m
      by_cases hr : rest = []
      · subst hr
        simp only [List.foldl_cons, List.foldl_nil]
        exact ⟨(keyf j, v), btreeInsert_self_mem m (keyf j) v, rfl⟩
      · simp only [List.foldl_cons]
        exact ih hr _

theorem insertVnodes_sorted (hashS : String → Nat) (id vn : Nat)
    (m : List (Nat × Nat)) (hm : ringSorted m) :
    ringSorted (insertVnodes hashS id vn m) :=
  foldlInsert_sorted (fun j => hashS (vnodeLabel id j)) id (List.range vn) m hm

theorem insertVnodes_mem (hashS : String → Nat) (id vn : Nat)
    (m : List (Nat × Nat)) (p : Nat × Nat)
    (hp : p ∈ insertVnodes hashS id vn m) : p.2 = id ∨ p ∈ m :=
  foldlInsert_mem (fun j => hashS (vnodeLabel id j)) id (List.range vn) m p hp

theorem insertVnodes_ne_nil_pres (hashS : String → Nat) (id vn : Nat)
    (m : List (Nat × Nat)) (hm : m ≠ []) :
    insertVnodes hashS id vn m ≠ [] :=
  foldlInsert_ne_nil_pres (fun j => hashS (vnodeLabel id j)) id
    (List.range vn) m hm

theorem insertVnodes_exists (hashS : String → Nat) (id vn : Nat)
    (hvn : 1 ≤ vn) (m : List (Nat × Nat)) :
    ∃ p ∈ insertVnodes hashS id vn m, p.2 = id :=
  foldlInsert_exists_val (fun j => hashS (vnodeLabel id j)) id
    (List.range vn)
    (by
      have hne : vn ≠ 0 := by omega
      simpa [List.range_eq_nil] using hne) m

theorem insertVnodes_ne_nil_pos (hashS : String → Nat) (id vn : Nat)
    (hvn : 1 ≤ vn) (m : List (Nat × Nat)) :
    insertVnodes hashS id vn m ≠ [] := by
  obtain ⟨p, hp, _⟩ := insertVnodes_exists hashS id vn hvn m
  intro h
  rw [h] at hp
  exact List.not_mem_nil p hp

theorem buildFold_sorted (hashS : String → Nat) (vn : Nat) (ids : List Nat) :
    ∀ m : List (Nat × Nat), ringSorted m →
      ringSorted (ids.foldl (fun r id => insertVnodes hashS id vn r) m) := by
  induction ids with
  | nil => intro m hm; simpa using hm
  | cons i rest ih =>
      intro m hm
      simp only [List.foldl_cons]
      exact ih _ (insertVnodes_sorted hashS i vn m hm)

theorem buildFold_mem (hashS : String → Nat) (vn : Nat) (ids : List Nat) :
    ∀ (m : List (Nat × Nat)) (p : Nat × Nat),
      p ∈ ids.foldl (fun r id => insertVnodes hashS id vn r) m →
      p.2 ∈ ids ∨ p ∈ m := by
  induction ids with
  | nil => intro m p hp; exact Or.inr (by simpa using hp)
  | cons i rest ih =>
      intro m p hp
      simp only [List.foldl_cons] at hp
      rcases ih _ p hp with hh | hh
      · exact Or.inl (List.mem_cons_of_mem _ hh)
      · rcases insertVnodes_mem hashS i vn m p hh with h2 | h2
        · exact Or.inl (by simp [h2])
        · exact Or.inr h2

theorem buildFold_ne_nil_pres (hashS : String → Nat) (vn : Nat)
    (ids : List Nat) :
    ∀ m : List (Nat × Nat), m ≠ [] →
      ids.foldl (fun r id => insertVnodes hashS id vn r) m ≠ [] := by
  induction ids with
  | nil => intro m hm; simpa using hm
  | cons i rest ih =>
      intro m hm
      simp only [List.foldl_cons]
      exact ih _ (insertVnodes_ne_nil_pres hashS i vn m hm)

theorem buildRing_sorted (hashS : String → Nat) (ids : List Nat) (vn : Nat) :
    ringSorted (buildRing hashS ids vn) :=
  buildFold_sorted hashS vn ids [] (by simp [ringSorted])

theorem buildRing_mem (hashS : String → Nat) (ids : List Nat) (vn : Nat)
    (p : Nat × Nat) (hp : p ∈ buildRing hashS ids vn) : p.2 ∈ ids := by
  rcases buildFold_mem hashS vn ids [] p hp with hh | hh
  · exact hh
  · exact absurd hh (List.not_mem_nil p)

theorem buildRing_ne_nil (hashS : String → Nat) (ids : List Nat) (vn : Nat)
    (hids : ids ≠ []) (hvn : 1 ≤ vn) : buildRing hashS ids vn ≠ [] := by
  cases ids with
  | nil => exact absurd rfl hids
  | cons i rest =>
      simp only [buildRing, List.foldl_cons]
      exact buildFold_ne_nil_pres hashS vn rest _
        (insertVnodes_ne_nil_pos hashS i vn hvn [])

theorem rangeNext_some {m : List (Nat × Nat)} {h : Nat} {p : Nat × Nat}
    (hs : ringSorted m) (hf : rangeNext m h = some p) :
    p ∈ m ∧ h ≤ p.1 ∧ ∀ q ∈ m, h ≤ q.1 → p.1 ≤ q.1 := by
  induction m with
  | nil => simp [rangeNext] at hf
  | cons a rest ih =>
      rw [ringSorted, List.pairwise_cons] at hs
      obtain ⟨hhead, htail⟩ := hs
      by_cases hpa : h ≤ a.1
      · have : rangeNext (a :: rest) h = some a := by
          simp [rangeNext, List.find?_cons, hpa]
        rw [this] at hf
        obtain rfl := Option.some.injEq .. ▸ hf
        refine ⟨List.mem_cons_self _ _, hpa, ?_⟩
        intro q hq _
        rcases List.mem_cons.mp hq with hq | hq
        · rw [hq]
        · exact Nat.le_of_lt (hhead q hq)
      · have hstep : rangeNext (a :: rest) h = rangeNext rest h := by
          simp [rangeNext, List.find?_cons, hpa]
        rw [hstep] at hf
        obtain ⟨hmem, hle, hmin⟩ := ih htail hf
        refine ⟨List.mem_cons_of_mem _ hmem, hle, ?_⟩
        intro q hq hqh
        rcases List.mem_cons.mp hq with hq | hq
        · exact absurd (hq ▸ hqh) hpa
        · exact hmin q hq hqh

theorem rangeNext_none {m : List (Nat × Nat)} {h : Nat}
    (hf : rangeNext m h = none) : ∀ q ∈ m, q.1 < h := by
  induction m with
  | nil => intro q hq; simp at hq
  | cons a rest ih =>
      intro q hq
      by_cases hpa : h ≤ a.1
      · have : rangeNext (a :: rest) h = some a := by
          simp [rangeNext, List.find?_cons, hpa]
        rw [this] at hf
        cases hf
      · have hstep : rangeNext (a :: rest) h = rangeNext rest h := by
          simp [rangeNext, List.find?_cons, hpa]
        rw [hstep] at hf
        rcases List.mem_cons.mp hq with hq | hq
        · rw [hq]; omega
        · exact ih hf q hq

theorem head?_min {m : List (Nat × Nat)} {p : Nat × Nat}
    (hs : ringSorted m) (hh : m.head? = some p) :
    p ∈ m ∧ ∀ q ∈ m, p.1 ≤ q.1 := by
  cases m with
  | nil => cases hh
  | cons a rest =>
      rw [List.head?_cons, Option.some.injEq] at hh
      subst hh
      rw [ringSorted, List.pairwise_cons] at hs
      refine ⟨List.mem_cons_self _ _, ?_⟩
      intro q hq
      rcases List.mem_cons.mp hq with hq | hq
      · rw [hq]
      · exact Nat.le_of_lt (hs.1 q hq)

/-- C6: routing on a ring built from a non-empty shard-id list with at
least one vnode per shard. `get_shard` returns the shard id stored at a
ring entry `p`; whenever some ring entry's hash is ≥ the key's hash, `p`
is the one with the smallest such hash, and when every ring entry's hash
is < the key's hash, `p` wraps around to the entry with the smallest hash
overall. -/
theorem get_shard_picks_successor (hashS hK : String → Nat)
    (shard_ids : List Nat) (vn : Nat) (key : String)
    (hids : shard_ids ≠ []) (hvn : 1 ≤ vn) :
    ∃ p : Nat × Nat,
      p ∈ (ConsistentHashRing.new hashS shard_ids vn).ring ∧
      ConsistentHashRing.get_shard hK
        (ConsistentHashRing.new hashS shard_ids vn) key = some p.2 ∧
      ((∃ q ∈ (ConsistentHashRing.new hashS shard_ids vn).ring,
          hK key ≤ q.1) →
        hK key ≤ p.1 ∧
          ∀ q ∈ (ConsistentHashRing.new hashS shard_ids vn).ring,
            hK key ≤ q.1 → p.1 ≤ q.1) ∧
      ((∀ q ∈ (ConsistentHashRing.new hashS shard_ids vn).ring,
          q.1 < hK key) →
        ∀ q ∈ (ConsistentHashRing.new hashS shard_ids vn).ring,
          p.1 ≤ q.1) := by
  have hs : ringSorted (buildRing hashS shard_ids vn) :=
    buildRing_sorted hashS shard_ids vn
  have hne : buildRing hashS shard_ids vn ≠ [] :=
    buildRing_ne_nil hashS shard_ids vn hids hvn
  cases hf : rangeNext (buildRing hashS shard_ids vn) (hK key) with
  | some p =>
      obtain ⟨hmem, hle, hmin⟩ := rangeNext_some hs hf
      refine ⟨p, hmem, ?_, ?_, ?_⟩
      · simp [ConsistentHashRing.get_shard, ConsistentHashRing.new, hf]
      · intro _
        exact ⟨hle, hmin⟩
      · intro hall
        exact absurd hle (Nat.not_le.mpr (hall p hmem))
  | none =>
      cases hh : (buildRing hashS shard_ids vn).head? with
      | none =>
          exact absurd (List.head?_eq_none_iff.mp hh) hne
      | some p =>
          obtain ⟨hmem, hmin⟩ := head?_min hs hh
          refine ⟨p, hmem, ?_, ?_, ?_⟩
          · simp [ConsistentHashRing.get_shard, ConsistentHashRing.new, hf,
              firstValue, hh]
          · intro hex
            obtain ⟨q, hq, hqh⟩ := hex
            exact absurd (rangeNext_none hf q hq) (Nat.not_lt.mpr hqh)
          · intro _
            exact hmin

theorem get_shard_picks_successor_witness :
    (([7] : List Nat) ≠ [] ∧ 1 ≤ 1) ∧
    (∃ p : Nat × Nat,
      p ∈ (ConsistentHashRing.new (fun _ => 5) [7] 1).ring ∧
      ConsistentHashRing.get_shard (fun _ => 3)
        (ConsistentHashRing.new (fun _ => 5) [7] 1) "k" = some p.2 ∧
      ((∃ q ∈ (ConsistentHashRing.new (fun _ => 5) [7] 1).ring,
          (fun (_ : String) => 3) "k" ≤ q.1) →
        (fun (_ : String) => 3) "k" ≤ p.1 ∧
          ∀ q ∈ (ConsistentHashRing.new (fun _ => 5) [7] 1).ring,
            (fun (_ : String) => 3) "k" ≤ q.1 → p.1 ≤ q.1) ∧
      ((∀ q ∈ (ConsistentHashRing.new (fun _ => 5) [7] 1).ring,
          q.1 < (fun (_ : String) => 3) "k") →
        ∀ q ∈ (ConsistentHashRing.new (fun _ => 5) [7] 1).ring,
          p.1 ≤ q.1)) :=
  ⟨⟨by decide, by decide⟩,
    get_shard_picks_successor (fun _ => 5) (fun _ => 3) [7] 1 "k"
      (by decide) (by decide)⟩

/-- C7: the claim "start constructs the ring over exactly the shard
indices [0, shard_count)" fails on the code: the ring is built from the
inclusive range `0..=num_shards`, so for every hash function the ring
contains an entry whose shard id is `num_shards`, which is not among the
ids the spawn loop created. -/
theorem start_ring_contains_uncreated_shard (hashS : String → Nat)
    (num_shards : Nat) :
    ∃ p : Nat × Nat, p ∈ (startRing hashS num_shards).ring ∧
      p.2 ∉ startShardIds num_shards := by
  have hsplit :
      (startRing hashS num_shards).ring =
        insertVnodes hashS num_shards 64
          (buildRing hashS (List.range num_shards) 64) := by
    simp only [startRing, ConsistentHashRing.new, buildRing,
      List.range_succ, List.foldl_append, List.foldl_cons, List.foldl_nil]
  obtain ⟨p, hp, hpv⟩ :=
    insertVnodes_exists hashS num_shards 64 (by omega)
      (buildRing hashS (List.range num_shards) 64)
  refine ⟨p, ?_, ?_⟩
  · rw [hsplit]; exact hp
  · rw [hpv]
    simp [startShardIds, List.mem_range]

/-- C10: on a ring built from a non-empty shard-id list with at least one
vnode per shard, `get_shard` always returns a shard id drawn from that
shard-id list. -/
theorem get_shard_returns_known_shard (hashS hK : String → Nat)
    (shard_ids : List Nat) (vn : Nat) (key : String)
    (hids : shard_ids ≠ []) (hvn : 1 ≤ vn) :
    ∃ sid, ConsistentHashRing.get_shard hK
        (ConsistentHashRing.new hashS shard_ids vn) key = some sid ∧
      sid ∈ shard_ids := by
  have hs : ringSorted (buildRing hashS shard_ids vn) :=
    buildRing_sorted hashS shard_ids vn
  have hne : buildRing hashS shard_ids vn ≠ [] :=
    buildRing_ne_nil hashS shard_ids vn hids hvn
  cases hf : rangeNext (buildRing hashS shard_ids vn) (hK key) with
  | some p =>
      obtain ⟨hmem, _, _⟩ := rangeNext_some hs hf
      refine ⟨p.2, ?_, buildRing_mem hashS shard_ids vn p hmem⟩
      simp [ConsistentHashRing.get_shard, ConsistentHashRing.new, hf]
  | none =>
      cases hh : (buildRing hashS shard_ids vn).head? with
      | none => exact absurd (List.head?_eq_none_iff.mp hh) hne
      | some p =>
          obtain ⟨hmem, _⟩ := head?_min hs hh
          refine ⟨p.2, ?_, buildRing_mem hashS shard_ids vn p hmem⟩
          simp [ConsistentHashRing.get_shard, ConsistentHashRing.new, hf,
            firstValue, hh]

theorem get_shard_returns_known_shard_witness :
    (([4, 9] : List Nat) ≠ [] ∧ 1 ≤ 2) ∧
    (∃ sid, ConsistentHashRing.get_shard (fun _ => 11)
        (ConsistentHashRing.new (fun _ => 5) [4, 9] 2) "user:1" = some sid ∧
      sid ∈ ([4, 9] : List Nat)) :=
  ⟨⟨by decide, by decide⟩,
    get_shard_returns_known_shard (fun _ => 5) (fun _ => 11) [4, 9] 2
      "user:1" (by decide) (by decide)⟩
